import Mathlib

/-!
Formal model of the splintercat incremental integration engine.

A shallow embedding of the core of the splintercat repository:

* `src/core/state.py`   — `Result`, `State`, `State.record_result`
* `src/strategy/bisect.py` — `BisectStrategy.next_attempt`
* `src/core/runner.py`  — `Runner.run` main loop
* `src/core/target.py`  — `GitTarget.try_patches`
* `src/core/command_runner.py` / `src/runner/check.py` — timeout handling
* `src/patchset/range.py` — `RangePatchSet`

Patch ids are modelled as naturals (the source uses git commit hashes,
distinct strings; distinctness appears as `List.Nodup` hypotheses where
a proof needs it).  The original patch list is modelled by its list of
ids, and a candidate patch set by the list of ids it would enumerate.
-/

namespace Splintercat

/-- Result of one attempt (src/core/state.py `Result`).  Only the fields
read by `BisectStrategy.next_attempt` are modelled; timing and output
strings are diagnostic text the engine never parses. -/
structure Result where
  patch_ids : List Nat
  success : Bool
  applied : Bool
  failed_patch_id : Option Nat
deriving DecidableEq, Repr

/-- Embeds the `current_bisect` dictionary stored in `strategy_data`
(src/strategy/bisect.py lines 108-112).
`end` is a Lean keyword, so the field is named `endIdx`. -/
structure BisectWindow where
  start : Nat
  endIdx : Nat
  mid : Nat
deriving DecidableEq, Repr

/-- The strategy-private entries of `state.strategy_data` read and written
by `BisectStrategy.next_attempt`.  The Python code stores them in an open
dict with defaults `[]`, `0`, `None` (bisect.py lines 32-35); the defaults
are the initial field values of `State.mk` below. -/
structure StrategyData where
  known_bad_ids : List Nat
  applied_up_to_index : Nat
  current_bisect : Option BisectWindow
deriving DecidableEq, Repr

/-- Embeds `State` from src/core/state.py: original patchset (as its id list),
append-only result history, `done` flag and strategy data. -/
structure State where
  original_ids : List Nat
  results : List Result
  done : Bool
  strategy_data : StrategyData
deriving DecidableEq, Repr

/-- The initial state built in `Runner.run` line 54:
`State(original_patchset=original_patches)` with pydantic defaults
(`results=[]`, `done=False`, `strategy_data={}`). -/
def initState (ids : List Nat) : State :=
  ⟨ids, [], false, ⟨[], 0, none⟩⟩

/-- Candidate `patchset.slice(a, b)` enumerated as ids: Python slice semantics
`source[a:b]` for nonnegative bounds (clamping at the list length). -/
def sliceIds (ids : List Nat) (a b : Nat) : List Nat :=
  (ids.drop a).take (b - a)

/-- The inner lookup of bisect.py lines 52-55: scan indices from 0 and
break at the first `i` with `original_patchset.get(i).id == patch_id`. -/
def findFirstIdx (ids : List Nat) (pid : Nat) : Option Nat :=
  match ids with
  | [] => none
  | x :: t => if x = pid then some 0 else (findFirstIdx t pid).map (· + 1)

/-- bisect.py lines 50-57: `max_index` starts at 0 and, for every id of
the successful result, takes the max with the first index holding that id
(ids absent from the original contribute nothing). -/
def maxAppliedIndex (ids : List Nat) (patch_ids : List Nat) : Nat :=
  patch_ids.foldl
    (fun m pid =>
      match findFirstIdx ids pid with
      | some i => max m i
      | none => m)
    0

/-- bisect.py lines 87-91: first index `i` in `[start, len)` with
`original_patchset.get(i).id == bad`. -/
def findBadFrom (ids : List Nat) (bad : Nat) (start : Nat) : Option Nat :=
  (List.range' start (ids.length - start)).find?
    (fun i => decide (ids.getD i 0 = bad))

/-- bisect.py lines 121-131: single pass over `[applied_up_to, total)`;
a non-bad index bumps `remaining_count`, a bad index moves
`remaining_start` to `i + 1`.  Returns `(remaining_start, remaining_count)`
(`remaining_count` is computed by the source but never used afterwards). -/
def remainingScan (ids : List Nat) (kb : List Nat) (upTo : Nat) : Nat × Nat :=
  (List.range' upTo (ids.length - upTo)).foldl
    (fun acc i =>
      if ids.getD i 0 ∈ kb then (i + 1, acc.2) else (acc.1, acc.2 + 1))
    (upTo, 0)

/-- bisect.py lines 150-155: `end_index` is the first known-bad index in
`[remaining_start, total)`, or `total` when there is none. -/
def firstBadFrom (ids : List Nat) (kb : List Nat) (rs : Nat) : Nat :=
  match (List.range' rs (ids.length - rs)).find?
      (fun i => decide (ids.getD i 0 ∈ kb)) with
  | some i => i
  | none => ids.length

/-- Phase 1 of `BisectStrategy.next_attempt` (bisect.py lines 44-117):
analyse the last result and update the strategy data.
* success: frontier := `max_index + 1`, bisect cleared (lines 47-64);
* `failed_patch_id` set: mark bad, bisect cleared (lines 68-78);
* single patch failed tests: mark bad, move frontier past it, bisect
  cleared (lines 80-98);
* several patches failed tests: open a bisect window
  `{start = applied_up_to, end = start + len(patch_ids), mid = (start+end)//2}`
  (lines 100-117). -/
def analyze (ids : List Nat) (last : Result) (sd : StrategyData) : StrategyData :=
  if last.success then
    { sd with
      applied_up_to_index := maxAppliedIndex ids last.patch_ids + 1
      current_bisect := none }
  else
    match last.failed_patch_id with
    | some bad =>
        { sd with
          known_bad_ids := List.insert bad sd.known_bad_ids
          current_bisect := none }
    | none =>
        if last.patch_ids.length = 1 then
          { sd with
            known_bad_ids := List.insert (last.patch_ids.headD 0) sd.known_bad_ids
            applied_up_to_index :=
              match findBadFrom ids (last.patch_ids.headD 0) sd.applied_up_to_index with
              | some i => i + 1
              | none => sd.applied_up_to_index
            current_bisect := none }
        else
          { sd with
            current_bisect :=
              some ⟨sd.applied_up_to_index,
                    sd.applied_up_to_index + last.patch_ids.length,
                    (sd.applied_up_to_index
                      + (sd.applied_up_to_index + last.patch_ids.length)) / 2⟩ }

/-- Phase 2 of `BisectStrategy.next_attempt` (bisect.py lines 119-166):
decide what to try next from the updated strategy data.  `none` means the
source set `state.done = True` and returned `None` (lines 134-139 and
163-166). -/
def decideNext (ids : List Nat) (sd : StrategyData) : Option (List Nat) :=
  let rs := (remainingScan ids sd.known_bad_ids sd.applied_up_to_index).1
  if ids.length ≤ rs then none
  else
    match sd.current_bisect with
    | some cb => some (sliceIds ids cb.start cb.mid)
    | none =>
        let e := firstBadFrom ids sd.known_bad_ids rs
        if 0 < e - rs then some (sliceIds ids rs e) else none

/-- Embeds `BisectStrategy.next_attempt` (bisect.py lines 16-166).  On the first
call (`len(state.results) == 0`) the whole original patchset is returned
unconditionally (lines 40-42); otherwise the last result is analysed and
the next candidate decided.  Returns the candidate (or `none`) together
with the mutated state. -/
def nextAttempt (state : State) : Option (List Nat) × State :=
  match state.results.getLast? with
  | none => (some state.original_ids, state)
  | some last =>
      match decideNext state.original_ids
          (analyze state.original_ids last state.strategy_data) with
      | none =>
          (none, { state with
            strategy_data := analyze state.original_ids last state.strategy_data
            done := true })
      | some cand =>
          (some cand, { state with
            strategy_data :=
              analyze state.original_ids last state.strategy_data })

/-- Outcome of one `Target.try_patches` attempt, as the engine-loop model
feeds it into `State.record_result`: overall success, whether all patches
applied, and the id of the patch that failed to apply (if any). -/
structure Outcome where
  success : Bool
  applied : Bool
  failed_patch_id : Option Nat
deriving DecidableEq, Repr

/-- Embeds `State.record_result` (state.py lines 41-80): appends one `Result`
whose `patch_ids` are the ids of the attempted patchset. -/
def recordResult (s : State) (cand : List Nat) (o : Outcome) : State :=
  { s with results := s.results ++ [⟨cand, o.success, o.applied, o.failed_patch_id⟩] }

/-- One iteration of the `Runner.run` main loop (runner.py lines 60-72)
with the target's behaviour abstracted as a function of the candidate id
list.  The loop runs while `not state.done`; a `None` candidate breaks out
(the strategy has already set `done`); otherwise the attempt outcome is
recorded.  (The source's call `state.record_result(next_set, success)` is
defective — see the C1 theorem; this model records the outcome the way
`record_result`'s signature requires.) -/
def engineStep (oracle : List Nat → Outcome) (s : State) : State :=
  if s.done then s
  else
    match nextAttempt s with
    | (none, s') => s'
    | (some cand, s') => recordResult s' cand (oracle cand)

/-- Runs `n` iterations of the engine loop from state `s`. -/
def engineIter (oracle : List Nat → Outcome) (s : State) : Nat → State
  | 0 => s
  | n + 1 => engineStep oracle (engineIter oracle s n)

/-- Embeds `Runner.run` up to the creation of the engine state (runner.py lines
45-54): with zero patches the function logs a warning and returns before
any `State` is created, so no state (in particular no `done = True` state)
is ever produced; otherwise the fresh initial state enters the main loop. -/
def runnerRunState (ids : List Nat) : Option State :=
  if ids.length = 0 then none else some (initState ids)

/-! ## Reachability invariant of the engine loop

Every candidate `BisectStrategy.next_attempt` returns is a nonempty
contiguous slice `[a, b)` of the original list starting at or after the
current frontier.  This is what makes the frontier monotone: the success
branch recomputes the frontier as one past the highest index occurring in
the last candidate. -/

/-- A candidate id list is a nonempty slice `[a, b)` of the original ids
with `au ≤ a` and `b ≤ len`. -/
def CandOk (ids : List Nat) (au : Nat) (cand : List Nat) : Prop :=
  ∃ a b, au ≤ a ∧ a < b ∧ b ≤ ids.length ∧ cand = sliceIds ids a b

/-- Invariant of reachable engine states: the frontier is within bounds
and, while the run is live, the last recorded result (if any) was a
`CandOk` candidate, and a fresh history implies a fresh frontier. -/
def Inv (s : State) : Prop :=
  s.strategy_data.applied_up_to_index ≤ s.original_ids.length ∧
  (s.done = false →
    (s.results.getLast? = none → s.strategy_data.applied_up_to_index = 0) ∧
    (∀ r, s.results.getLast? = some r →
      CandOk s.original_ids s.strategy_data.applied_up_to_index r.patch_ids))

/-! ## The spec's potential function

`len(all_units) - frontier - |known_bad_ids ∩ [frontier, end)|` (spec §8,
Termination).  The intersection is modelled by counting the indices in
`[frontier, len)` whose id is in `known_bad_ids`. -/

/-- Number of indices in `[lo, hi)` whose id lies in `kb`. -/
def badCountIn (ids kb : List Nat) (lo hi : Nat) : Nat :=
  (List.range' lo (hi - lo)).countP (fun i => decide (ids.getD i 0 ∈ kb))

/-- The spec's potential function, as an integer. -/
def potential (s : State) : Int :=
  (s.original_ids.length : Int) - s.strategy_data.applied_up_to_index -
    badCountIn s.original_ids s.strategy_data.known_bad_ids
      s.strategy_data.applied_up_to_index s.original_ids.length

/-! ## The loop state seen by the strategy

`BisectStrategy.next_attempt` reads only the original ids, the last
result, the `done` flag and the strategy data; the rest of the growing
result history is dead for control flow.  Projecting a state onto these
components turns the engine loop into a deterministic transition system
on a finite amount of data, which is what exhibits its infinite loops. -/

structure EngineView where
  original_ids : List Nat
  last : Option Result
  done : Bool
  strategy_data : StrategyData
deriving DecidableEq, Repr

def State.view (s : State) : EngineView :=
  ⟨s.original_ids, s.results.getLast?, s.done, s.strategy_data⟩

/-- A canonical state with a given view. -/
def viewState (v : EngineView) : State :=
  ⟨v.original_ids,
    match v.last with
    | none => []
    | some r => [r],
    v.done, v.strategy_data⟩

/-! ## `GitTarget.try_patches` (src/core/target.py lines 68-99)

The working copy is an abstract type `σ`; the git subprocesses behind
`apply_one` and the test command are a `TargetModel`: `applyOne w p`
returns the new working copy, or `none` when `git am` exits nonzero (the
source then runs `git am --abort` before reporting failure, so failure
leaves a rollbackable state); `test w` is the test command's verdict. -/

structure TargetModel (σ : Type) where
  applyOne : σ → Nat → Option σ
  test : σ → Bool

/-- Outcome of one `try_patches` call, together with the final working
copy and whether the test command was ever run.  The pair
`(success, applied)` is exactly the source's return value. -/
structure TryOutcome (σ : Type) where
  success : Bool
  applied : Bool
  finalState : σ
  testRan : Bool
deriving DecidableEq, Repr

/-- Embeds `GitTarget._apply_patches` (target.py lines 123-152): apply patches
one by one, stopping at the first failure. -/
def applyPatches {σ : Type} (m : TargetModel σ) (w : σ) : List Nat → Option σ
  | [] => some w
  | p :: ps =>
      match m.applyOne w p with
      | none => none
      | some w' => applyPatches m w' ps

/-- Embeds `GitTarget.try_patches` (target.py lines 68-99): capture the current
state (`_get_current_state`), apply all patches, run tests only when all
applied, and `_rollback` to the captured state on any failure
(`git am --abort; git reset --hard <state>; git clean`), modelled as
restoring the captured working copy. -/
def tryPatches {σ : Type} (m : TargetModel σ) (w : σ) (ps : List Nat) :
    TryOutcome σ :=
  match applyPatches m w ps with
  | none => ⟨false, false, w, false⟩
  | some w' =>
      if m.test w' then ⟨true, true, w', true⟩
      else ⟨false, true, w, true⟩

/-! ## `CommandRunner.run` timeout handling (src/core/command_runner.py)

The subprocess itself is external; its behaviour is either completing
with an exit code and output, or exceeding the timeout.  The source wraps
execution in `try/except subprocess.TimeoutExpired` (lines 49-85): both
the `communicate(timeout=…)` path and the real-time `select` path raise
`TimeoutExpired`, which is caught, the process killed, and
`Result(-1, stdout or "", stderr or "Command timed out")` returned — the
function is total, it never lets the timeout escape as an exception. -/

inductive ExecBehavior where
  | completes (returncode : Int) (stdout stderr : String)
  | timedOut (partialOut partialErr : String)
deriving DecidableEq, Repr

/-- Embeds `Result` from src/core/result.py. -/
structure CmdResult where
  returncode : Int
  stdout : String
  stderr : String
deriving DecidableEq, Repr

/-- The `success` property of `Result` (result.py lines 34-37). -/
def CmdResult.success (r : CmdResult) : Bool := r.returncode == 0

/-- Embeds `CommandRunner.run` as a function of the subprocess behaviour. -/
def runCommand (b : ExecBehavior) : CmdResult :=
  match b with
  | .completes rc out err => ⟨rc, out, err⟩
  | .timedOut pout perr =>
      ⟨-1, pout, if perr = "" then "Command timed out" else perr⟩

/-- Embeds the `success` field of `CheckRunner.run` (src/runner/check.py line 59):
`success=(result.returncode == 0)`. -/
def checkRunSuccess (b : ExecBehavior) : Bool :=
  (runCommand b).returncode == 0

/-! ## `RangePatchSet` (src/patchset/range.py)

Patches carry an id; `source` is the full backing list, `[start, stop)`
the represented window (`end` in the source; a Lean keyword). -/

structure Patch where
  id : Nat
deriving DecidableEq, Repr

structure RangePatchSet where
  source : List Patch
  start : Nat
  stop : Nat
deriving DecidableEq, Repr

/-- Embeds `RangePatchSet.size` (range.py lines 25-27): `end - start`. -/
def RangePatchSet.size (p : RangePatchSet) : Nat := p.stop - p.start

/-- Embeds `RangePatchSet.get` (range.py lines 29-43): bounds-checked relative
indexing; `none` models the `IndexError`. -/
def RangePatchSet.get (p : RangePatchSet) (index : Nat) : Option Patch :=
  if index < p.size then p.source.get? (p.start + index) else none

/-- Embeds `RangePatchSet.slice` (range.py lines 57-67):
`RangePatchSet(self.source, self.start + start, self.start + end)`. -/
def RangePatchSet.slice (p : RangePatchSet) (a b : Nat) : RangePatchSet :=
  ⟨p.source, p.start + a, p.start + b⟩

/-! ## Concrete runs used by the claims -/

/-- Five units, ids 0‥4 (spec Scenario B uses index = id). -/
def unitsB : List Nat := [0, 1, 2, 3, 4]

/-- Eight units, ids 0‥7 (spec Scenario C). -/
def unitsC : List Nat := [0, 1, 2, 3, 4, 5, 6, 7]

/-- Scenario-B target behaviour: unit 2 fails to apply whenever included;
any candidate without it applies and validates. -/
def oracleB (cand : List Nat) : Outcome :=
  if 2 ∈ cand then ⟨false, false, some 2⟩ else ⟨true, true, none⟩

/-- Scenario-C target behaviour: everything applies; validation fails
exactly when unit 5 is included. -/
def oracleC (cand : List Nat) : Outcome :=
  if 5 ∈ cand then ⟨false, true, none⟩ else ⟨true, true, none⟩

/-- A consistent target on `unitsB` under which the engine loops forever:
unit 0 always fails to apply, and any candidate avoiding it fails
validation. -/
def oracleL (cand : List Nat) : Outcome :=
  if 0 ∈ cand then ⟨false, false, some 0⟩ else ⟨false, true, none⟩

/-- A target model whose unit `bad` fails to apply and every other unit
applies; tests always pass. -/
def failsOn (bad : Nat) : TargetModel Nat :=
  ⟨fun w p => if p = bad then none else some (w + 1), fun _ => true⟩

/-- A small target model for witnesses: unit 0 never applies, other units
bump a counter, tests pass exactly at counter 3. -/
def demoTarget : TargetModel Nat :=
  ⟨fun w p => if p = 0 then none else some (w + p), fun w => w == 3⟩

/-- A state whose only recorded result is an apply failure of unit 0 over
the full range `[0, 1, 2]`. -/
def stateC3 : State :=
  ⟨[0, 1, 2], [⟨[0, 1, 2], false, false, some 0⟩], false, ⟨[], 0, none⟩⟩

/-- The state `BisectStrategy.next_attempt` leaves behind on `stateC3`. -/
def stateC3' : State := (nextAttempt stateC3).2

/-- A three-patch backing list for the `RangePatchSet` witness. -/
def demoRange : RangePatchSet := ⟨[⟨10⟩, ⟨11⟩, ⟨12⟩], 0, 3⟩

/-! ## Basic facts about the helper functions -/

theorem sliceIds_length {ids : List Nat} {a b : Nat} (hb : b ≤ ids.length) :
    (sliceIds ids a b).length = b - a := by
  simp only [sliceIds, List.length_take, List.length_drop]
  omega

theorem range'_shift : ∀ (n s : Nat),
    List.range' (s + 1) n = (List.range' s n).map (· + 1) := by
  intro n
  induction n with
  | zero => intro s; rfl
  | succ n ih =>
      intro s
      simp only [List.range'_succ, List.map_cons, ih (s + 1)]

theorem sliceIds_eq_map : ∀ (ids : List Nat) (a b : Nat), b ≤ ids.length →
    sliceIds ids a b = (List.range' a (b - a)).map (fun i => ids.getD i 0) := by
  intro ids
  induction ids with
  | nil =>
      intro a b hb
      simp only [List.length_nil, Nat.le_zero] at hb
      subst hb
      simp [sliceIds]
  | cons x t ih =>
      intro a b hb
      cases a with
      | zero =>
          cases b with
          | zero => simp [sliceIds]
          | succ c =>
              have hc : c ≤ t.length := by
                simpa [List.length_cons] using hb
              have : sliceIds (x :: t) 0 (c + 1) = x :: sliceIds t 0 c := by
                simp [sliceIds, List.take_succ_cons]
              rw [this, ih 0 c hc]
              have h1 : List.range' 0 (c + 1 - 0) = 0 :: List.range' 1 c := by
                simp [List.range'_succ]
              rw [h1, List.map_cons]
              simp only [List.getD_cons_zero]
              congr 1
              rw [range'_shift c 0, List.map_map]
              apply List.map_congr_left
              intro i _
              simp [Function.comp]
      | succ s =>
          have hdrop : sliceIds (x :: t) (s + 1) b = sliceIds t s (b - 1) := by
            simp only [sliceIds, List.drop_succ_cons]
            congr 1
            omega
          rw [hdrop]
          cases b with
          | zero => simp [sliceIds, List.range']
          | succ c =>
              have hc : c ≤ t.length := by
                simpa [List.length_cons] using hb
              rw [show c + 1 - 1 = c from rfl, ih s c hc]
              have h2 : List.range' (s + 1) (c - s) =
                  (List.range' s (c - s)).map (· + 1) := range'_shift _ _
              have h3 : c + 1 - (s + 1) = c - s := by omega
              rw [h3, h2, List.map_map]
              apply List.map_congr_left
              intro i _
              simp [Function.comp]

theorem findFirstIdx_getD : ∀ (ids : List Nat), ids.Nodup → ∀ (j : Nat),
    j < ids.length → findFirstIdx ids (ids.getD j 0) = some j := by
  intro ids
  induction ids with
  | nil => intro _ j hj; simp at hj
  | cons x t ih =>
      intro hnd j hj
      rw [List.nodup_cons] at hnd
      cases j with
      | zero => simp [findFirstIdx]
      | succ j =>
          have hjt : j < t.length := by
            simpa [List.length_cons] using hj
          have hmem : t.getD j 0 ∈ t := by
            have : t.get? j = some (t.getD j 0) := by
              rw [List.getD_eq_getElem?_getD]
              rw [List.getElem?_eq_getElem hjt]
              simp [List.get?_eq_getElem?, List.getElem?_eq_getElem hjt]
            exact List.get?_mem this
          have hne : x ≠ t.getD j 0 := fun h => hnd.1 (h ▸ hmem)
          simp only [findFirstIdx, List.getD_cons_succ]
          rw [if_neg hne, ih hnd.2 j hjt]
          rfl

theorem foldl_max_range' : ∀ (n a m : Nat), 1 ≤ n →
    List.foldl (fun x i => max x i) m (List.range' a n) = max m (a + n - 1) := by
  intro n
  induction n with
  | zero => intro a m h; omega
  | succ n ih =>
      intro a m _
      cases n with
      | zero => simp [List.range'_succ]
      | succ k =>
          rw [List.range'_succ, List.foldl_cons, ih (a + 1) (max m a) (by omega)]
          have h1 : a + 1 + (k + 1) - 1 = a + (k + 1 + 1) - 1 := by omega
          rw [h1]
          have h2 : a ≤ a + (k + 1 + 1) - 1 := by omega
          omega

theorem maxAppliedIndex_slice {ids : List Nat} (hnd : ids.Nodup) {a b : Nat}
    (hab : a < b) (hb : b ≤ ids.length) :
    maxAppliedIndex ids (sliceIds ids a b) = b - 1 := by
  rw [maxAppliedIndex, sliceIds_eq_map ids a b hb, List.foldl_map]
  have hcong :
      List.foldl
        (fun m i =>
          match findFirstIdx ids (ids.getD i 0) with
          | some k => max m k
          | none => m)
        0 (List.range' a (b - a)) =
      List.foldl (fun m i => max m i) 0 (List.range' a (b - a)) := by
    apply List.foldl_ext
    intro m i hi
    have hib : i < b := by
      have := (List.mem_range'_1.mp hi).2
      omega
    rw [findFirstIdx_getD ids hnd i (lt_of_lt_of_le hib hb)]
  rw [hcong, foldl_max_range' (b - a) a 0 (by omega)]
  omega

theorem sliceIds_full (ids : List Nat) : sliceIds ids 0 ids.length = ids := by
  simp [sliceIds]

theorem mem_sliceIds {ids : List Nat} {x a b : Nat} (hb : b ≤ ids.length)
    (hx : x ∈ sliceIds ids a b) :
    ∃ j, a ≤ j ∧ j < b ∧ x = ids.getD j 0 := by
  rw [sliceIds_eq_map ids a b hb] at hx
  obtain ⟨j, hj, hjx⟩ := List.mem_map.mp hx
  obtain ⟨hj1, hj2⟩ := List.mem_range'_1.mp hj
  exact ⟨j, hj1, by omega, hjx.symm⟩

theorem scan_spec (ids kb : List Nat) : ∀ (n a : Nat) (p : Nat × Nat), p.1 ≤ a →
    p.1 ≤ (List.foldl
        (fun acc i =>
          if ids.getD i 0 ∈ kb then (i + 1, acc.2) else (acc.1, acc.2 + 1))
        p (List.range' a n)).1 ∧
    (∀ j, a ≤ j → j < a + n → ids.getD j 0 ∈ kb →
      j < (List.foldl
        (fun acc i =>
          if ids.getD i 0 ∈ kb then (i + 1, acc.2) else (acc.1, acc.2 + 1))
        p (List.range' a n)).1) := by
  intro n
  induction n with
  | zero =>
      intro a p hp
      refine ⟨le_refl _, ?_⟩
      intro j hj1 hj2
      omega
  | succ n ih =>
      intro a p hp
      rw [List.range'_succ, List.foldl_cons]
      by_cases hbad : ids.getD a 0 ∈ kb
      · rw [if_pos hbad]
        have h := ih (a + 1) (a + 1, p.2) (le_refl _)
        refine ⟨by omega, ?_⟩
        intro j hj1 hj2 hjbad
        rcases Nat.eq_or_lt_of_le hj1 with h1 | h1
        · omega
        · exact h.2 j h1 (by omega) hjbad
      · rw [if_neg hbad]
        have h := ih (a + 1) (p.1, p.2 + 1) (by omega)
        refine ⟨h.1, ?_⟩
        intro j hj1 hj2 hjbad
        rcases Nat.eq_or_lt_of_le hj1 with h1 | h1
        · exact absurd (h1 ▸ hjbad) hbad
        · exact h.2 j h1 (by omega) hjbad

theorem remainingScan_ge (ids kb : List Nat) (upTo : Nat) :
    upTo ≤ (remainingScan ids kb upTo).1 :=
  (scan_spec ids kb (ids.length - upTo) upTo (upTo, 0) (le_refl _)).1

theorem remainingScan_bad_lt {ids kb : List Nat} {upTo j : Nat}
    (h1 : upTo ≤ j) (h2 : j < ids.length) (h3 : ids.getD j 0 ∈ kb) :
    j < (remainingScan ids kb upTo).1 :=
  (scan_spec ids kb (ids.length - upTo) upTo (upTo, 0) (le_refl _)).2 j h1
    (by omega) h3

theorem firstBadFrom_le (ids kb : List Nat) (rs : Nat) :
    firstBadFrom ids kb rs ≤ ids.length := by
  unfold firstBadFrom
  cases hf : (List.range' rs (ids.length - rs)).find?
      (fun i => decide (ids.getD i 0 ∈ kb)) with
  | none => exact le_refl _
  | some i =>
      show i ≤ ids.length
      have hmem := List.mem_of_find?_eq_some hf
      have := List.mem_range'_1.mp hmem
      omega

theorem firstBadFrom_ge {ids kb : List Nat} {rs : Nat} (h : rs ≤ ids.length) :
    rs ≤ firstBadFrom ids kb rs := by
  unfold firstBadFrom
  cases hf : (List.range' rs (ids.length - rs)).find?
      (fun i => decide (ids.getD i 0 ∈ kb)) with
  | none => exact h
  | some i =>
      show rs ≤ i
      have hmem := List.mem_of_find?_eq_some hf
      have := List.mem_range'_1.mp hmem
      omega

theorem findBadFrom_bounds {ids : List Nat} {bad start i : Nat}
    (h : findBadFrom ids bad start = some i) :
    start ≤ i ∧ i < ids.length := by
  unfold findBadFrom at h
  have hmem := List.mem_of_find?_eq_some h
  have := List.mem_range'_1.mp hmem
  omega

theorem inv_initState (ids : List Nat) : Inv (initState ids) := by
  refine ⟨Nat.zero_le _, fun _ => ⟨fun _ => rfl, fun r hr => ?_⟩⟩
  simp [initState] at hr

theorem analyze_au {ids : List Nat} (hnd : ids.Nodup) {last : Result}
    {sd : StrategyData} (hle : sd.applied_up_to_index ≤ ids.length)
    (hlast : CandOk ids sd.applied_up_to_index last.patch_ids) :
    sd.applied_up_to_index ≤ (analyze ids last sd).applied_up_to_index ∧
    (analyze ids last sd).applied_up_to_index ≤ ids.length := by
  obtain ⟨a, b, ha, hab, hb, hp⟩ := hlast
  unfold analyze
  by_cases hs : last.success = true
  · rw [if_pos hs]
    simp only
    rw [hp, maxAppliedIndex_slice hnd hab hb]
    omega
  · rw [if_neg hs]
    cases hfp : last.failed_patch_id with
    | some bad => exact ⟨le_refl _, hle⟩
    | none =>
        by_cases hone : last.patch_ids.length = 1
        · rw [if_pos hone]
          simp only
          cases hfind : findBadFrom ids (last.patch_ids.headD 0)
              sd.applied_up_to_index with
          | none => exact ⟨le_refl _, hle⟩
          | some i =>
              have hbnd := findBadFrom_bounds hfind
              exact show sd.applied_up_to_index ≤ i + 1 ∧ i + 1 ≤ ids.length by
                omega
        · rw [if_neg hone]
          exact ⟨le_refl _, hle⟩

theorem analyze_kb {ids : List Nat} {last : Result} {sd : StrategyData} :
    ∀ x ∈ sd.known_bad_ids, x ∈ (analyze ids last sd).known_bad_ids := by
  intro x hx
  unfold analyze
  by_cases hs : last.success = true
  · rw [if_pos hs]; exact hx
  · rw [if_neg hs]
    cases hfp : last.failed_patch_id with
    | some bad => exact List.mem_insert_iff.mpr (Or.inr hx)
    | none =>
        by_cases hone : last.patch_ids.length = 1
        · rw [if_pos hone]
          exact List.mem_insert_iff.mpr (Or.inr hx)
        · rw [if_neg hone]; exact hx

theorem analyze_cb {ids : List Nat} {last : Result} {sd : StrategyData}
    (_hle : sd.applied_up_to_index ≤ ids.length)
    (hlast : CandOk ids sd.applied_up_to_index last.patch_ids) :
    (analyze ids last sd).current_bisect = none ∨
    (∃ L, 2 ≤ L ∧
      (analyze ids last sd).current_bisect =
        some ⟨sd.applied_up_to_index, sd.applied_up_to_index + L,
          (sd.applied_up_to_index + (sd.applied_up_to_index + L)) / 2⟩ ∧
      (analyze ids last sd).applied_up_to_index = sd.applied_up_to_index ∧
      sd.applied_up_to_index + L ≤ ids.length) := by
  obtain ⟨a, b, ha, hab, hb, hp⟩ := hlast
  unfold analyze
  by_cases hs : last.success = true
  · rw [if_pos hs]; exact Or.inl rfl
  · rw [if_neg hs]
    cases hfp : last.failed_patch_id with
    | some bad => exact Or.inl rfl
    | none =>
        by_cases hone : last.patch_ids.length = 1
        · rw [if_pos hone]; exact Or.inl rfl
        · rw [if_neg hone]
          refine Or.inr ⟨last.patch_ids.length, ?_, rfl, rfl, ?_⟩
          · have hlen : last.patch_ids.length = b - a := by
              rw [hp, sliceIds_length hb]
            omega
          · have hlen : last.patch_ids.length = b - a := by
              rw [hp, sliceIds_length hb]
            omega

theorem decideNext_some {ids : List Nat} {sd : StrategyData}
    (_hle : sd.applied_up_to_index ≤ ids.length)
    (hcb : sd.current_bisect = none ∨
      ∃ L, 2 ≤ L ∧
        sd.current_bisect =
          some ⟨sd.applied_up_to_index, sd.applied_up_to_index + L,
            (sd.applied_up_to_index + (sd.applied_up_to_index + L)) / 2⟩ ∧
        sd.applied_up_to_index + L ≤ ids.length)
    {cand : List Nat} (h : decideNext ids sd = some cand) :
    CandOk ids sd.applied_up_to_index cand := by
  unfold decideNext at h
  by_cases hrs : ids.length ≤
      (remainingScan ids sd.known_bad_ids sd.applied_up_to_index).1
  · rw [if_pos hrs] at h
    exact absurd h (by simp)
  · rw [if_neg hrs] at h
    rcases hcb with hnone | ⟨L, hL, hsome, hlen⟩
    · rw [hnone] at h
      simp only at h
      set rs := (remainingScan ids sd.known_bad_ids sd.applied_up_to_index).1
        with hrsdef
      by_cases hpos : 0 < firstBadFrom ids sd.known_bad_ids rs - rs
      · rw [if_pos hpos] at h
        refine ⟨rs, firstBadFrom ids sd.known_bad_ids rs,
          remainingScan_ge ids _ _, by omega,
          firstBadFrom_le ids _ rs, ?_⟩
        exact (Option.some_injective _ h).symm
      · rw [if_neg hpos] at h
        exact absurd h (by simp)
    · rw [hsome] at h
      simp only at h
      refine ⟨sd.applied_up_to_index,
        (sd.applied_up_to_index + (sd.applied_up_to_index + L)) / 2,
        le_refl _, by omega, by omega, ?_⟩
      exact (Option.some_injective _ h).symm

theorem nextAttempt_spec {s : State} (hnd : s.original_ids.Nodup)
    (hlen : 1 ≤ s.original_ids.length) (hinv : Inv s) (hdone : s.done = false) :
    ∀ o s', nextAttempt s = (o, s') →
      s.strategy_data.applied_up_to_index ≤
        s'.strategy_data.applied_up_to_index ∧
      s'.strategy_data.applied_up_to_index ≤ s.original_ids.length ∧
      (∀ x ∈ s.strategy_data.known_bad_ids,
        x ∈ s'.strategy_data.known_bad_ids) ∧
      (∀ cand, o = some cand →
        CandOk s.original_ids s'.strategy_data.applied_up_to_index cand) ∧
      s'.results = s.results ∧
      s'.original_ids = s.original_ids ∧
      (o = none → s'.done = true) ∧
      (∀ cand, o = some cand → s'.done = s.done) := by
  intro o s' h
  unfold nextAttempt at h
  split at h
  · -- first attempt: the whole original patchset is returned
    rename_i heq
    injection h with h1 h2
    subst h1; subst h2
    have hau0 : s.strategy_data.applied_up_to_index = 0 :=
      (hinv.2 hdone).1 heq
    refine ⟨le_refl _, hinv.1, fun x hx => hx, ?_, rfl, rfl, by simp,
      fun cand _ => rfl⟩
    intro cand hc
    injection hc with hc
    subst hc
    exact ⟨0, s.original_ids.length, by omega, hlen, le_refl _,
      (sliceIds_full s.original_ids).symm⟩
  · rename_i last heq
    have hlast : CandOk s.original_ids s.strategy_data.applied_up_to_index
        last.patch_ids := (hinv.2 hdone).2 last heq
    have hau := analyze_au hnd hinv.1 hlast
    have hkb := @analyze_kb s.original_ids last s.strategy_data
    have hcb := analyze_cb hinv.1 hlast
    split at h
    · injection h with h1 h2
      subst h1; subst h2
      refine ⟨hau.1, hau.2, hkb, ?_, rfl, rfl, fun _ => rfl, ?_⟩
      · intro cand hc
        exact absurd hc (by simp)
      · intro cand hc
        exact absurd hc (by simp)
    · rename_i cand0 heq2
      injection h with h1 h2
      subst h1; subst h2
      refine ⟨hau.1, hau.2, hkb, ?_, rfl, rfl, by simp, fun cand _ => rfl⟩
      intro cand hc
      injection hc with hc
      subst hc
      apply decideNext_some hau.2 _ heq2
      rcases hcb with hnone | ⟨L, hL, hcbeq, haueq, hlen'⟩
      · exact Or.inl hnone
      · exact Or.inr ⟨L, hL, by rw [hcbeq, haueq], by rw [haueq]; exact hlen'⟩

theorem engineStep_spec (oracle : List Nat → Outcome) {s : State}
    (hnd : s.original_ids.Nodup) (hlen : 1 ≤ s.original_ids.length)
    (hinv : Inv s) :
    Inv (engineStep oracle s) ∧
    s.strategy_data.applied_up_to_index ≤
      (engineStep oracle s).strategy_data.applied_up_to_index ∧
    (∀ x ∈ s.strategy_data.known_bad_ids,
      x ∈ (engineStep oracle s).strategy_data.known_bad_ids) ∧
    (engineStep oracle s).original_ids = s.original_ids := by
  by_cases hd : s.done = true
  · rw [engineStep, if_pos hd]
    exact ⟨hinv, le_refl _, fun x hx => hx, rfl⟩
  · have hdone : s.done = false := Bool.eq_false_iff.mpr hd
    rw [engineStep, if_neg hd]
    rcases hna : nextAttempt s with ⟨o, s'⟩
    have spec := nextAttempt_spec hnd hlen hinv hdone o s' hna
    obtain ⟨hmono, hle, hkb, hcand, hres, horig, hdn, hds⟩ := spec
    cases o with
    | none =>
        refine ⟨⟨by rw [horig]; exact hle, ?_⟩, hmono, hkb, horig⟩
        intro hfalse
        rw [hdn rfl] at hfalse
        cases hfalse
    | some cand =>
        refine ⟨⟨?_, ?_⟩, hmono, hkb, horig⟩
        · show s'.strategy_data.applied_up_to_index ≤ _
          rw [show (recordResult s' cand (oracle cand)).original_ids
              = s'.original_ids from rfl, horig]
          exact hle
        · intro _
          constructor
          · intro hnone
            rw [show (recordResult s' cand (oracle cand)).results
                = s'.results ++ [⟨cand, (oracle cand).success,
                  (oracle cand).applied, (oracle cand).failed_patch_id⟩]
                from rfl] at hnone
            rw [List.getLast?_concat] at hnone
            cases hnone
          · intro r hr
            rw [show (recordResult s' cand (oracle cand)).results
                = s'.results ++ [⟨cand, (oracle cand).success,
                  (oracle cand).applied, (oracle cand).failed_patch_id⟩]
                from rfl] at hr
            rw [List.getLast?_concat] at hr
            injection hr with hr
            subst hr
            show CandOk (recordResult s' cand (oracle cand)).original_ids
              s'.strategy_data.applied_up_to_index cand
            rw [show (recordResult s' cand (oracle cand)).original_ids
                = s'.original_ids from rfl, horig]
            exact hcand cand rfl

theorem engineIter_spec (oracle : List Nat → Outcome) {ids : List Nat}
    (hnd : ids.Nodup) (hlen : 1 ≤ ids.length) :
    ∀ n, Inv (engineIter oracle (initState ids) n) ∧
      (engineIter oracle (initState ids) n).original_ids = ids := by
  intro n
  induction n with
  | zero => exact ⟨inv_initState ids, rfl⟩
  | succ n ih =>
      have hnd' : (engineIter oracle (initState ids) n).original_ids.Nodup :=
        by rw [ih.2]; exact hnd
      have hlen' :
          1 ≤ (engineIter oracle (initState ids) n).original_ids.length := by
        rw [ih.2]; exact hlen
      have h := engineStep_spec oracle hnd' hlen' ih.1
      exact ⟨h.1, by rw [show engineIter oracle (initState ids) (n + 1)
        = engineStep oracle (engineIter oracle (initState ids) n) from rfl,
        h.2.2.2, ih.2]⟩

theorem badCountIn_le (ids kb : List Nat) (lo hi : Nat) :
    badCountIn ids kb lo hi ≤ hi - lo := by
  calc badCountIn ids kb lo hi
      ≤ (List.range' lo (hi - lo)).length := List.countP_le_length _
    _ = hi - lo := List.length_range' _ _ _

theorem badCountIn_mono_kb (ids : List Nat) {kb kb' : List Nat} (lo hi : Nat)
    (h : ∀ x ∈ kb, x ∈ kb') :
    badCountIn ids kb lo hi ≤ badCountIn ids kb' lo hi := by
  apply List.countP_mono_left
  intro i _ hi
  simp only [decide_eq_true_eq] at hi ⊢
  exact h _ hi

theorem badCountIn_split (ids kb : List Nat) {lo mid hi : Nat}
    (h1 : lo ≤ mid) (h2 : mid ≤ hi) :
    badCountIn ids kb lo hi = badCountIn ids kb lo mid + badCountIn ids kb mid hi := by
  unfold badCountIn
  have hr : List.range' lo (hi - lo) =
      List.range' lo (mid - lo) ++ List.range' mid (hi - mid) := by
    have := List.range'_append lo (mid - lo) (hi - mid) 1
    simp only [one_mul, Nat.mul_one] at this
    rw [show lo + (mid - lo) = mid by omega] at this
    rw [show hi - mid + (mid - lo) = hi - lo by omega] at this
    exact this.symm
  rw [hr, List.countP_append]

theorem potential_arith {ids kb kb' : List Nat} {au au' : Nat}
    (h1 : au ≤ au') (h2 : au' ≤ ids.length) (hkb : ∀ x ∈ kb, x ∈ kb') :
    (ids.length : Int) - au' - badCountIn ids kb' au' ids.length ≤
    (ids.length : Int) - au - badCountIn ids kb au ids.length := by
  have hsplit := badCountIn_split ids kb' h1 h2
  have hmono := badCountIn_mono_kb ids au ids.length hkb
  have hle := badCountIn_le ids kb' au au'
  omega

theorem potential_step (oracle : List Nat → Outcome) {s : State}
    (hnd : s.original_ids.Nodup) (hlen : 1 ≤ s.original_ids.length)
    (hinv : Inv s) :
    potential (engineStep oracle s) ≤ potential s ∧ 0 ≤ potential s := by
  constructor
  · have hspec := engineStep_spec oracle hnd hlen hinv
    obtain ⟨hinv', hmono, hkb, horig⟩ := hspec
    have hle : (engineStep oracle s).strategy_data.applied_up_to_index ≤
        s.original_ids.length := by
      have := hinv'.1
      rwa [horig] at this
    unfold potential
    rw [horig]
    exact potential_arith hmono hle hkb
  · have h1 := hinv.1
    have h2 := badCountIn_le s.original_ids s.strategy_data.known_bad_ids
      s.strategy_data.applied_up_to_index s.original_ids.length
    unfold potential
    omega

theorem view_viewState (v : EngineView) : (viewState v).view = v := by
  cases v with
  | mk ids last d sd => cases last <;> rfl

theorem view_recordResult (s : State) (cand : List Nat) (o : Outcome) :
    (recordResult s cand o).view =
      ⟨s.original_ids,
        some ⟨cand, o.success, o.applied, o.failed_patch_id⟩,
        s.done, s.strategy_data⟩ := by
  simp [State.view, recordResult, List.getLast?_concat]

theorem nextAttempt_view {s t : State} (h : s.view = t.view) :
    (nextAttempt s).1 = (nextAttempt t).1 ∧
    ((nextAttempt s).2).view = ((nextAttempt t).2).view := by
  have hids : s.original_ids = t.original_ids :=
    congrArg EngineView.original_ids h
  have hlast : s.results.getLast? = t.results.getLast? :=
    congrArg EngineView.last h
  have hdone : s.done = t.done := congrArg EngineView.done h
  have hsd : s.strategy_data = t.strategy_data :=
    congrArg EngineView.strategy_data h
  unfold nextAttempt
  cases hl : t.results.getLast? with
  | none =>
      rw [hlast.trans hl]
      exact ⟨by rw [hids], h⟩
  | some last =>
      rw [hlast.trans hl]
      rw [hids, hsd]
      cases hd : decideNext t.original_ids
          (analyze t.original_ids last t.strategy_data) with
      | none =>
          simp only [hd]
          refine ⟨trivial, ?_⟩
          simp only [State.view]
          rw [hlast]
      | some cand =>
          simp only [hd]
          refine ⟨trivial, ?_⟩
          simp only [State.view]
          rw [hlast, hdone]

theorem engineStep_view (oracle : List Nat → Outcome) {s t : State}
    (h : s.view = t.view) :
    (engineStep oracle s).view = (engineStep oracle t).view := by
  have hdone : s.done = t.done := congrArg EngineView.done h
  unfold engineStep
  by_cases hd : t.done = true
  · rw [if_pos hd, if_pos (hdone.trans hd)]
    exact h
  · rw [if_neg hd, if_neg (fun hh => hd (hdone.symm.trans hh))]
    have hna := nextAttempt_view h
    rcases hs : nextAttempt s with ⟨os, s'⟩
    rcases ht : nextAttempt t with ⟨ot, t'⟩
    have ho : os = ot := by
      have := hna.1; rw [hs, ht] at this; exact this
    have hv : s'.view = t'.view := by
      have := hna.2; rw [hs, ht] at this; exact this
    subst ho
    cases os with
    | none => exact hv
    | some cand =>
        rw [view_recordResult, view_recordResult]
        have hids' : s'.original_ids = t'.original_ids :=
          congrArg EngineView.original_ids hv
        have hdone' : s'.done = t'.done := congrArg EngineView.done hv
        have hsd' : s'.strategy_data = t'.strategy_data :=
          congrArg EngineView.strategy_data hv
        rw [hids', hdone', hsd']

theorem engineIter_view_shift (oracle : List Nat → Outcome) (s0 : State)
    {m n : Nat}
    (h : (engineIter oracle s0 m).view = (engineIter oracle s0 n).view) :
    ∀ k, (engineIter oracle s0 (m + k)).view
      = (engineIter oracle s0 (n + k)).view := by
  intro k
  induction k with
  | zero => exact h
  | succ k ih =>
      rw [show m + (k + 1) = (m + k) + 1 from rfl,
        show n + (k + 1) = (n + k) + 1 from rfl]
      exact engineStep_view oracle ih

/-! ## Claims -/

/-- C1.  `GitTarget.try_patches` returns only the pair
`(success, applied)`: when a unit fails to apply, two targets that differ
in *which* unit failed produce the very same return value
`(False, False)`, so the value `Runner.run` passes to
`State.record_result` cannot carry the failing unit's id — `Runner.run`
(runner.py line 72) moreover passes that pair as the single `success`
argument, omitting the required `applied` argument and `failed_patch_id`
entirely, so no attempt record with `failed_patch_id` set is ever
produced by the driver. -/
theorem c1_apply_failure_not_identifiable :
    tryPatches (failsOn 7) 0 [7, 8] = tryPatches (failsOn 8) 0 [7, 8] ∧
    tryPatches (failsOn 7) 0 [7, 8] = ⟨false, false, 0, false⟩ := by
  constructor <;> rfl

/-- C2 counterexample.  In Scenario B (unit 2 of five fails to apply) the
second candidate produced by `BisectStrategy.next_attempt` is `[3, 4]`,
not the claimed `[0, 1, 3, 4]`: units 0 and 1 are absent. -/
theorem c2_second_attempt_skips_prior_units :
    (nextAttempt (engineIter oracleB (initState unitsB) 1)).1 = some [3, 4] ∧
    (0 : Nat) ∉ [3, 4] ∧ (1 : Nat) ∉ [3, 4] := by
  refine ⟨?_, by decide, by decide⟩
  rfl

/-- C2 (amended).  Scenario B on the code: the first attempt tries all
five units; after the apply failure of unit 2, the second candidate is
exactly units 3 and 4 (units 0 and 1, which precede the bad unit, are
skipped because the remaining-range start jumps past the last known-bad
index); unit 2 is in `known_bad_ids`; after the second attempt passes,
the frontier advances to 5 with `known_bad_ids = [2]` and the run
finishes. -/
theorem c2_scenario_b_trace :
    (nextAttempt (initState unitsB)).1 = some [0, 1, 2, 3, 4] ∧
    (engineIter oracleB (initState unitsB) 1).results =
      [⟨[0, 1, 2, 3, 4], false, false, some 2⟩] ∧
    (engineIter oracleB (initState unitsB) 2).strategy_data.known_bad_ids
      = [2] ∧
    (nextAttempt (engineIter oracleB (initState unitsB) 1)).1 = some [3, 4] ∧
    (engineIter oracleB (initState unitsB) 3).strategy_data.applied_up_to_index
      = 5 ∧
    (engineIter oracleB (initState unitsB) 3).strategy_data.known_bad_ids
      = [2] ∧
    (engineIter oracleB (initState unitsB) 3).done = true := by
  refine ⟨rfl, rfl, rfl, rfl, rfl, rfl, rfl⟩

/-- C3 counterexample.  Reachable run on five units (unit 0 fails to
apply, the rest fail validation together): at the third call, id 0 is in
`known_bad_ids`, yet the bisected candidate returned is `[0, 1]`, which
contains it — the bisect window `[applied_up_to, applied_up_to + len)` is
misaligned with the actually-attempted range once a bad unit was skipped. -/
theorem c3_bisect_candidate_contains_known_bad :
    (0 : Nat) ∈
      (engineIter oracleL (initState unitsB) 2).strategy_data.known_bad_ids ∧
    (nextAttempt (engineIter oracleL (initState unitsB) 2)).1
      = some [0, 1] ∧
    (0 : Nat) ∈ [0, 1] := by
  refine ⟨by decide, ?_, by decide⟩
  rfl

/-- C3 (amended).  When `next_attempt` returns a candidate and is *not*
bisecting (the stored `current_bisect` is `None`), the candidate — the
remaining range `[remaining_start, end_index)` — contains no known-bad
id; candidates produced from an active bisect window may contain
known-bad ids. -/
theorem c3_remaining_candidate_excludes_known_bad {s : State} {r : Result}
    {cand : List Nat} {s' : State}
    (hr : s.results.getLast? = some r)
    (h : nextAttempt s = (some cand, s'))
    (hcb : s'.strategy_data.current_bisect = none) :
    ∀ x ∈ cand, x ∉ s'.strategy_data.known_bad_ids := by
  unfold nextAttempt at h
  split at h
  · rename_i heq
    rw [heq] at hr
    cases hr
  · rename_i last heq
    split at h
    · injection h with h1 _
      cases h1
    · rename_i cand0 heq2
      injection h with h1 h2
      subst h2
      injection h1 with h1
      rw [h1] at heq2
      have hcb' : (analyze s.original_ids last s.strategy_data).current_bisect
          = none := hcb
      unfold decideNext at heq2
      by_cases hrs : s.original_ids.length ≤
          (remainingScan s.original_ids
            (analyze s.original_ids last s.strategy_data).known_bad_ids
            (analyze s.original_ids last s.strategy_data).applied_up_to_index).1
      · rw [if_pos hrs] at heq2
        exact absurd heq2 (by simp)
      · rw [if_neg hrs] at heq2
        rw [hcb'] at heq2
        simp only at heq2
        set rs := (remainingScan s.original_ids
          (analyze s.original_ids last s.strategy_data).known_bad_ids
          (analyze s.original_ids last s.strategy_data).applied_up_to_index).1
          with hrsdef
        by_cases hpos : 0 < firstBadFrom s.original_ids
            (analyze s.original_ids last s.strategy_data).known_bad_ids rs - rs
        · rw [if_pos hpos] at heq2
          have hc : cand = sliceIds s.original_ids rs
              (firstBadFrom s.original_ids
                (analyze s.original_ids last s.strategy_data).known_bad_ids
                rs) := (Option.some_injective _ heq2).symm
          intro x hx hbad
          rw [hc] at hx
          have hfle := firstBadFrom_le s.original_ids
            (analyze s.original_ids last s.strategy_data).known_bad_ids rs
          obtain ⟨j, hj1, hj2, hj3⟩ := mem_sliceIds hfle hx
          have hge := remainingScan_ge s.original_ids
            (analyze s.original_ids last s.strategy_data).known_bad_ids
            (analyze s.original_ids last s.strategy_data).applied_up_to_index
          have hlt := @remainingScan_bad_lt s.original_ids
            (analyze s.original_ids last s.strategy_data).known_bad_ids
            (analyze s.original_ids last s.strategy_data).applied_up_to_index
            j (by omega) (by omega) (hj3 ▸ hbad)
          omega
        · rw [if_neg hpos] at heq2
          exact absurd heq2 (by simp)

/-- C3 witness: a concrete non-bisecting call whose candidate `[1, 2]`
excludes the known-bad id 0. -/
theorem c3_remaining_candidate_excludes_known_bad_witness :
    (1 : Nat) ∈ [1, 2] ∧
    (1 : Nat) ∉ stateC3'.strategy_data.known_bad_ids :=
  ⟨by decide,
    @c3_remaining_candidate_excludes_known_bad stateC3
      ⟨[0, 1, 2], false, false, some 0⟩
      [1, 2] stateC3' rfl rfl rfl 1 (by decide)⟩

/-- C4 counterexample.  Scenario C (eight units, only unit 5 fails
validation): after the initial failing attempt and three further
validation attempts (four results recorded), `known_bad_ids` is still
empty and the frontier is at 4, not 8 — three attempts do not isolate
unit 5. -/
theorem c4_not_isolated_after_three_attempts :
    (engineIter oracleC (initState unitsC) 4).results.length = 4 ∧
    (engineIter oracleC (initState unitsC) 4).strategy_data.known_bad_ids
      = [] ∧
    (engineIter oracleC (initState unitsC)
      4).strategy_data.applied_up_to_index = 4 := by
  refine ⟨rfl, rfl, rfl⟩

/-- C4 (amended).  On Scenario C the code needs six validation attempts
after the initial failing one before unit 5 enters `known_bad_ids`
(isolation happens while analysing the seventh result), because a passing
half restarts from the whole remaining range instead of continuing the
bisection window; one further attempt integrates the tail, after which
the run is done with frontier 8 and `known_bad_ids = [5]` — eight
attempts in total rather than the claimed `1 + ceil(log2 8) + 1`. -/
theorem c4_scenario_c_trace :
    (engineIter oracleC (initState unitsC) 7).strategy_data.known_bad_ids
      = [] ∧
    (engineIter oracleC (initState unitsC) 7).results.length = 7 ∧
    (engineIter oracleC (initState unitsC) 8).strategy_data.known_bad_ids
      = [5] ∧
    (engineIter oracleC (initState unitsC) 8).results.length = 8 ∧
    (engineIter oracleC (initState unitsC) 9).done = true ∧
    (engineIter oracleC (initState unitsC)
      9).strategy_data.applied_up_to_index = 8 ∧
    (engineIter oracleC (initState unitsC) 9).strategy_data.known_bad_ids
      = [5] ∧
    (engineIter oracleC (initState unitsC) 9).results.length = 8 := by
  refine ⟨rfl, rfl, rfl, rfl, rfl, rfl, rfl, rfl⟩

/-- C5 counterexample.  Under the consistent target behaviour `oracleL`
(unit 0 never applies, every candidate avoiding it fails validation) the
engine loop on five units never reaches a terminal state: from the second
iteration on, the loop alternates between the remaining range
`[1, 2, 3, 4]` and the misaligned bisect slice `[0, 1]` forever. -/
theorem c5_engine_never_terminates :
    ¬ ∃ n, (engineIter oracleL (initState unitsB) n).done = true := by
  rintro ⟨n, hn⟩
  have hshift := engineIter_view_shift oracleL (initState unitsB)
    (m := 2) (n := 4) (by decide)
  have hper : ∀ k, (engineIter oracleL (initState unitsB) (2 + k)).view
      = (engineIter oracleL (initState unitsB) (2 + k % 2)).view := by
    intro k
    induction k using Nat.strong_induction_on with
    | _ k ih =>
        by_cases hk : k < 2
        · interval_cases k <;> rfl
        · have h1 : k - 2 < k := by omega
          have h2 := ih (k - 2) h1
          have h3 : 2 + k = 4 + (k - 2) := by omega
          have h4 : (k - 2) % 2 = k % 2 := by omega
          rw [h3, ← hshift (k - 2), h2, h4]
  rcases Nat.lt_or_ge n 2 with h | h
  · interval_cases n <;> revert hn <;> decide
  · obtain ⟨k, rfl⟩ : ∃ k, n = 2 + k := ⟨n - 2, by omega⟩
    have hv := hper k
    have hdone : (engineIter oracleL (initState unitsB) (2 + k)).done
        = ((engineIter oracleL (initState unitsB) (2 + k)).view).done := rfl
    rw [hdone, hv] at hn
    have hk2 : k % 2 = 0 ∨ k % 2 = 1 := by omega
    rcases hk2 with h0 | h0 <;> rw [h0] at hn <;> revert hn <;> decide

/-- C5 (amended).  The spec's potential function
`len(all_units) - frontier - |known_bad_ids ∩ [frontier, end)|` is
non-increasing across every engine-loop iteration and bounded below by 0,
for every target behaviour; but the loop does *not* always reach a
terminal state in finitely many iterations (see the counterexample): the
potential can stall forever. -/
theorem c5_potential_monotone (oracle : List Nat → Outcome)
    {ids : List Nat} (hnd : ids.Nodup) (hlen : 1 ≤ ids.length) (n : Nat) :
    0 ≤ potential (engineIter oracle (initState ids) n) ∧
    potential (engineIter oracle (initState ids) (n + 1)) ≤
      potential (engineIter oracle (initState ids) n) := by
  have h := engineIter_spec oracle hnd hlen n
  have hnd' : (engineIter oracle (initState ids) n).original_ids.Nodup := by
    rw [h.2]; exact hnd
  have hlen' :
      1 ≤ (engineIter oracle (initState ids) n).original_ids.length := by
    rw [h.2]; exact hlen
  have hp := potential_step oracle hnd' hlen' h.1
  exact ⟨hp.2, hp.1⟩

/-- C5 witness: concrete run (two good units, everything passes) at
iteration 0. -/
theorem c5_potential_monotone_witness :
    ([0, 1] : List Nat).Nodup ∧ 1 ≤ ([0, 1] : List Nat).length ∧
    (0 ≤ potential (engineIter (fun _ => ⟨true, true, none⟩)
        (initState [0, 1]) 0) ∧
      potential (engineIter (fun _ => ⟨true, true, none⟩)
        (initState [0, 1]) 1) ≤
        potential (engineIter (fun _ => ⟨true, true, none⟩)
          (initState [0, 1]) 0)) :=
  ⟨by decide, by decide,
    c5_potential_monotone (fun _ => ⟨true, true, none⟩)
      (by decide) (by decide) 0⟩

/-- C6.  `GitTarget.try_patches` is atomic: the working copy is captured
before any unit is applied; an apply failure returns `(False, False)`
with the working copy rolled back to the captured state and the test
command never run; a validation failure returns `(False, True)` with the
working copy rolled back; only full success returns `(True, True)` and
keeps the applied state. -/
theorem c6_try_patches_atomic {σ : Type} (m : TargetModel σ) (w : σ)
    (ps : List Nat) :
    (applyPatches m w ps = none →
      tryPatches m w ps = ⟨false, false, w, false⟩) ∧
    (∀ w', applyPatches m w ps = some w' → m.test w' = false →
      tryPatches m w ps = ⟨false, true, w, true⟩) ∧
    (∀ w', applyPatches m w ps = some w' → m.test w' = true →
      tryPatches m w ps = ⟨true, true, w', true⟩) := by
  refine ⟨?_, ?_, ?_⟩
  · intro h
    unfold tryPatches
    rw [h]
  · intro w' h ht
    unfold tryPatches
    rw [h]
    simp only [ht]
    rfl
  · intro w' h ht
    unfold tryPatches
    rw [h]
    simp only [ht]
    rfl

/-- C6 witness: the three branches on concrete working copies under
`demoTarget` (unit 0 fails to apply; tests pass exactly at counter 3). -/
theorem c6_try_patches_atomic_witness :
    (applyPatches demoTarget 5 [0] = none ∧
      tryPatches demoTarget 5 [0] = ⟨false, false, 5, false⟩) ∧
    (applyPatches demoTarget 5 [1] = some 6 ∧
      demoTarget.test 6 = false ∧
      tryPatches demoTarget 5 [1] = ⟨false, true, 5, true⟩) ∧
    (applyPatches demoTarget 0 [1, 2] = some 3 ∧
      demoTarget.test 3 = true ∧
      tryPatches demoTarget 0 [1, 2] = ⟨true, true, 3, true⟩) :=
  ⟨⟨rfl, (c6_try_patches_atomic demoTarget 5 [0]).1 rfl⟩,
    ⟨rfl, rfl, (c6_try_patches_atomic demoTarget 5 [1]).2.1 6 rfl rfl⟩,
    ⟨rfl, rfl, (c6_try_patches_atomic demoTarget 0 [1, 2]).2.2 3 rfl rfl⟩⟩

/-- C7.  When the subprocess behind `CommandRunner.run` exceeds its
timeout, the function returns `Result(-1, …)` — a failed result (nonzero
return code, `success = False`) — instead of letting the exception
escape, and `CheckRunner.run` consequently reports `success = False`. -/
theorem c7_timeout_returns_failure (pout perr : String) :
    (runCommand (.timedOut pout perr)).returncode = -1 ∧
    (runCommand (.timedOut pout perr)).success = false ∧
    checkRunSuccess (.timedOut pout perr) = false := by
  refine ⟨rfl, ?_, ?_⟩ <;> rfl

/-- C8.  Along every engine run (any finite unit list with distinct ids,
any sequence of target outcomes), the frontier
`strategy_data["applied_up_to_index"]` never decreases from one loop
iteration to the next. -/
theorem c8_frontier_monotone (oracle : List Nat → Outcome)
    {ids : List Nat} (hnd : ids.Nodup) (hlen : 1 ≤ ids.length) (n : Nat) :
    (engineIter oracle (initState ids) n).strategy_data.applied_up_to_index ≤
    (engineIter oracle (initState ids)
      (n + 1)).strategy_data.applied_up_to_index := by
  have h := engineIter_spec oracle hnd hlen n
  have hnd' : (engineIter oracle (initState ids) n).original_ids.Nodup := by
    rw [h.2]; exact hnd
  have hlen' :
      1 ≤ (engineIter oracle (initState ids) n).original_ids.length := by
    rw [h.2]; exact hlen
  exact (engineStep_spec oracle hnd' hlen' h.1).2.1

/-- C8 witness: Scenario-B run at iteration 1. -/
theorem c8_frontier_monotone_witness :
    unitsB.Nodup ∧ 1 ≤ unitsB.length ∧
    (engineIter oracleB (initState unitsB)
      1).strategy_data.applied_up_to_index ≤
    (engineIter oracleB (initState unitsB)
      2).strategy_data.applied_up_to_index :=
  ⟨by decide, by decide, c8_frontier_monotone oracleB (by decide) (by decide) 1⟩

/-- C9 counterexample.  With an empty unit list, `Runner.run` returns
before any engine state exists (runner.py lines 49-51), so no state with
`done = true` is ever produced — contradicting the claim that the engine
"sets done to true". -/
theorem c9_runner_creates_no_state : runnerRunState [] = none := rfl

/-- C9 (amended).  With an empty unit list the run still makes zero
attempts, but by returning from `Runner.run` before the engine state is
created: no `done` flag is ever set.  Had the loop been entered, the
strategy's first call would return the whole (empty) patchset rather
than `None` (bisect.py lines 40-42), so it would not have signalled
completion immediately either. -/
theorem c9_empty_input_early_out :
    runnerRunState [] = none ∧
    (nextAttempt (initState [])).1 = some [] ∧
    (nextAttempt (initState [])).2.done = false := by
  refine ⟨rfl, rfl, rfl⟩

/-- C10.  `RangePatchSet` slicing is relative and compositional: for
`0 ≤ a ≤ b ≤ p.size()`, `p.slice(a,b).size() = b - a`,
`p.slice(a,b).get(i) = p.get(a+i)` for `i < b - a`, and
`p.slice(a,b).slice(c,d) = p.slice(a+c, a+d)`. -/
theorem c10_range_slice_relative (p : RangePatchSet) (a b : Nat)
    (h1 : a ≤ b) (h2 : b ≤ p.size) :
    (p.slice a b).size = b - a ∧
    (∀ i, i < b - a → (p.slice a b).get i = p.get (a + i)) ∧
    (∀ c d, (p.slice a b).slice c d = p.slice (a + c) (a + d)) := by
  refine ⟨?_, ?_, ?_⟩
  · show p.start + b - (p.start + a) = b - a
    omega
  · intro i hi
    unfold RangePatchSet.get
    have hs : (p.slice a b).size = b - a := by
      show p.start + b - (p.start + a) = b - a
      omega
    rw [hs, if_pos hi, if_pos (show a + i < p.size by omega)]
    show p.source.get? (p.start + a + i) = p.source.get? (p.start + (a + i))
    rw [Nat.add_assoc]
  · intro c d
    show RangePatchSet.mk p.source (p.start + a + c) (p.start + a + d)
        = RangePatchSet.mk p.source (p.start + (a + c)) (p.start + (a + d))
    rw [Nat.add_assoc, Nat.add_assoc]

/-- C10 witness: a concrete three-patch range sliced at `[1, 3)`. -/
theorem c10_range_slice_relative_witness :
    (demoRange.slice 1 3).size = 2 ∧
    (demoRange.slice 1 3).get 0 = demoRange.get 1 ∧
    (demoRange.slice 1 3).slice 0 1 = demoRange.slice 1 2 :=
  have h := c10_range_slice_relative demoRange 1 3 (by decide) (by decide)
  ⟨h.1, h.2.1 0 (by decide), h.2.2 0 1⟩

end Splintercat
